import Mathlib

/-!
Verification development for the invoice-scanner price parser
(`parseInvoiceData` in `src/app/(tabs)/index.tsx`).

The parser is a pure function from the OCR text to a structure of price
strings.  It is driven by a handful of concrete JavaScript regular
expressions; each of them is hand-compiled below into an explicit matcher
over `List Char` that reproduces the engine's leftmost-match and greedy /
backtracking behaviour for that particular pattern:

  * pattern 1 (`/\$\s*([\d,]+\.?\d{0,2})/g`)          → `tryDollarAt`, `scanDollar`
  * pattern 2 (`/\b(\d{1,6}\.\d{2})\b/g`)             → `tryBareAt`, `scanBare`
  * the six labeled patterns (`/subtotal\s*:?\s*\$?\s*([\d,]+\.?\d{0,2})/i`, ...)
                                                      → `findLabelMatch amount02`
  * the strict total pattern (`/total\s*:?\s*\$?\s*([\d,]+\.?\d{2})/i`)
                                                      → `findLabelMatch amountStrict`
  * the per-line item pattern (`/(\d{1,6}\.\d{2})/`)  → `findItemPrice`

`\s` is modelled by its ASCII subset, `/i` by ASCII lower-casing; all the
characters relevant to the patterns (digits, `$`, `.`, `,`, `:`, letters)
are ASCII, where this model agrees with the JavaScript semantics.

JavaScript numbers only enter through `parseFloat` on the captured digit
strings (at most two fractional digits, magnitude below 100000 wherever a
comparison happens) and `toFixed(2)`; on that range the float arithmetic is
exact up to the order relation used, so it is modelled by exact integer
cents (`parseCentsL`, `formatCents`).
-/

/-- ASCII subset of the JavaScript `\s` character class. -/
def isWsChar (c : Char) : Bool :=
  c = ' ' || c = '\t' || c = '\n' || c = '\r' || c = '\x0b' || c = '\x0c'

/-- The character class `[\d,]`. -/
def isNumChar (c : Char) : Bool := c.isDigit || c = ','

/-- The JavaScript word-character class `\w` used by `\b`. -/
def isWordChar (c : Char) : Bool := c.isAlpha || c.isDigit || c = '_'

/-- Comma stripping, `price.replace(/,/g, "")`. -/
def stripCommas (cs : List Char) : List Char := cs.filter (fun c => !(c = ','))

/-- Greedy `\d{0,2}`. -/
def takeUpTo2Digits : List Char → List Char
  | [] => []
  | [a] => if a.isDigit then [a] else []
  | a :: b :: _ => if a.isDigit then (if b.isDigit then [a, b] else [a]) else []

/-- One attempt of `/\$\s*([\d,]+\.?\d{0,2})/` at the head of the list.
Returns the capture together with the number of characters consumed before
the capture (the `$` and the whitespace), so the scanner can resume at the
end of the whole match. -/
def tryDollarAt : List Char → Option (List Char × Nat)
  | [] => none
  | c :: rest =>
    if c = '$' then
      let ws := rest.takeWhile isWsChar
      let r1 := rest.dropWhile isWsChar
      let num := r1.takeWhile isNumChar
      let r2 := r1.dropWhile isNumChar
      if num.isEmpty then none
      else
        match r2 with
        | '.' :: r3 => some (num ++ '.' :: takeUpTo2Digits r3, 1 + ws.length)
        | _ => some (num, 1 + ws.length)
    else none

/-- Scanning loop of `text.matchAll` for pattern 1: try the pattern at every
position, and after a hit resume at the end of the whole match.  The fuel
starts at the length of the text; every step consumes at least one
character, so the fuel never runs out before the text does. -/
def scanDollarAux : Nat → List Char → List (List Char)
  | 0, _ => []
  | _ + 1, [] => []
  | fuel + 1, c :: rest =>
    match tryDollarAt (c :: rest) with
    | some (cap, skip) => cap :: scanDollarAux fuel ((c :: rest).drop (skip + cap.length))
    | none => scanDollarAux fuel rest

/-- All captures of `/\$\s*([\d,]+\.?\d{0,2})/g` over the text. -/
def scanDollar (cs : List Char) : List (List Char) := scanDollarAux cs.length cs

/-- A `\b` immediately before a word character: satisfied at the start of
the text and after any non-word character. -/
def boundaryB : Option Char → Bool
  | none => true
  | some c => !(isWordChar c)

/-- One attempt of `/\b(\d{1,6}\.\d{2})\b/` at the head of the list, given
the character immediately before it.  `\d{1,6}` must swallow the whole
digit run in front of the dot (shorter choices leave a digit, not a dot,
as the next character), so a run longer than six digits kills the attempt;
the trailing `\b` demands a non-word character (or the end) after the two
fraction digits. -/
def tryBareAt (prev : Option Char) (cs : List Char) : Option (List Char) :=
  if boundaryB prev then
    let ds := cs.takeWhile Char.isDigit
    let r1 := cs.dropWhile Char.isDigit
    if ds.isEmpty || 6 < ds.length then none
    else
      match r1 with
      | '.' :: a :: b :: r3 =>
        if a.isDigit && b.isDigit &&
            (match r3 with | [] => true | d :: _ => !(isWordChar d)) then
          some (ds ++ ['.', a, b])
        else none
      | _ => none
  else none

/-- Scanning loop of `text.matchAll` for pattern 2, tracking the previous
character for the word boundaries. -/
def scanBareAux : Nat → Option Char → List Char → List (List Char)
  | 0, _, _ => []
  | _ + 1, _, [] => []
  | fuel + 1, prev, c :: rest =>
    match tryBareAt prev (c :: rest) with
    | some cap => cap :: scanBareAux fuel cap.getLast? ((c :: rest).drop cap.length)
    | none => scanBareAux fuel (some c) rest

/-- All captures of `/\b(\d{1,6}\.\d{2})\b/g` over the text. -/
def scanBare (cs : List Char) : List (List Char) := scanBareAux cs.length none cs

/-- Case-insensitive literal word match (the word is given lower-case). -/
def matchWordCI : List Char → List Char → Option (List Char)
  | [], cs => some cs
  | _ :: _, [] => none
  | w :: ws, c :: cs => if c.toLower = w then matchWordCI ws cs else none

/-- A sequence of literal words separated by `\s*` (used for `sub\s*total`;
a single word for the other label patterns). -/
def matchWordsCI : List (List Char) → List Char → Option (List Char)
  | [], cs => some cs
  | w :: ws, cs =>
    match matchWordCI w cs with
    | none => none
    | some r =>
      match ws with
      | [] => some r
      | _ :: _ => matchWordsCI ws (r.dropWhile isWsChar)

/-- The amount part `([\d,]+\.?\d{0,2})` of the labeled patterns.  Since
everything after `[\d,]+` is optional, the greedy parse never backtracks. -/
def amount02 (cs : List Char) : Option (List Char) :=
  let num := cs.takeWhile isNumChar
  let r1 := cs.dropWhile isNumChar
  if num.isEmpty then none
  else
    match r1 with
    | '.' :: r2 => some (num ++ '.' :: takeUpTo2Digits r2)
    | _ => some num

/-- Does position `i` of the list hold a digit? -/
def digitAt (cs : List Char) (i : Nat) : Bool :=
  match cs.get? i with
  | some c => c.isDigit
  | none => false

/-- Backtracking tail of `([\d,]+\.?\d{2})` when the dot path fails: the
engine shrinks `[\d,]+` to `j - 2` characters (largest `j` first, `j ≥ 3`),
skips the optional dot (the next character is in `[\d,]`, never `.`), and
then needs the two characters at `j - 2` and `j - 1` of the run to be
digits; the capture is the first `j` characters of the run. -/
def strictBackJ (num : List Char) : Nat → Option (List Char)
  | 0 => none
  | 1 => none
  | 2 => none
  | j + 3 =>
    if digitAt num (j + 1) && digitAt num (j + 2) then some (num.take (j + 3))
    else strictBackJ num (j + 2)

/-- The amount part `([\d,]+\.?\d{2})` of the strict total pattern, with
the engine's backtracking: first the greedy path (whole `[\d,]` run, a dot,
two digits), otherwise `strictBackJ`. -/
def amountStrict (cs : List Char) : Option (List Char) :=
  let num := cs.takeWhile isNumChar
  let r1 := cs.dropWhile isNumChar
  if num.isEmpty then none
  else
    match r1 with
    | '.' :: a :: b :: _ =>
      if a.isDigit && b.isDigit then some (num ++ ['.', a, b])
      else strictBackJ num num.length
    | _ => strictBackJ num num.length

/-- The shared tail `\s*:?\s*\$?\s*` of every labeled pattern, followed by
the amount matcher.  The character classes of the consecutive optional
pieces are disjoint, so the greedy parse never backtracks. -/
def labelTail (amt : List Char → Option (List Char)) (cs : List Char) : Option (List Char) :=
  let r1 := cs.dropWhile isWsChar
  let r2 := match r1 with | ':' :: t => t | _ => r1
  let r3 := r2.dropWhile isWsChar
  let r4 := match r3 with | '$' :: t => t | _ => r3
  let r5 := r4.dropWhile isWsChar
  amt r5

/-- Leftmost `text.match` for a labeled pattern: the capture of the leftmost
position where the whole pattern (words, tail, amount) goes through. -/
def findLabelMatch (amt : List Char → Option (List Char))
    (words : List (List Char)) : List Char → Option (List Char)
  | [] => none
  | c :: rest =>
    match (matchWordsCI words (c :: rest)).bind (labelTail amt) with
    | some cap => some cap
    | none => findLabelMatch amt words rest

/-- Decimal value of a digit string. -/
def digitsToNat (cs : List Char) : Nat := cs.foldl (fun a c => a * 10 + (c.toNat - 48)) 0

/-- Cents contributed by the (at most two) fraction digits. -/
def frac2 : List Char → Nat
  | [] => 0
  | [a] => (a.toNat - 48) * 10
  | a :: b :: _ => (a.toNat - 48) * 10 + (b.toNat - 48)

/-- Model of `parseFloat` on the strings this parser feeds it (digits, at most one
dot, at most two fraction digits, possibly empty), in exact integer cents;
`none` models `NaN` (every numeric comparison against `NaN` is false). -/
def parseCentsL (cs : List Char) : Option Nat :=
  let ip := cs.takeWhile Char.isDigit
  let r1 := cs.dropWhile Char.isDigit
  match r1 with
  | '.' :: fr =>
    let fd := fr.takeWhile Char.isDigit
    if ip.isEmpty && fd.isEmpty then none
    else some (digitsToNat ip * 100 + frac2 fd)
  | _ => if ip.isEmpty then none else some (digitsToNat ip * 100)

/-- The decimal digit characters. -/
def digitChar : Nat → Char
  | 0 => '0' | 1 => '1' | 2 => '2' | 3 => '3' | 4 => '4'
  | 5 => '5' | 6 => '6' | 7 => '7' | 8 => '8' | 9 => '9'
  | _ + 10 => '0'

/-- Decimal digits of a natural number (fuelled; `natDigits` supplies
enough fuel for any input). -/
def natDigitsAux : Nat → Nat → List Char
  | 0, _ => []
  | fuel + 1, n =>
    if n < 10 then [digitChar n] else natDigitsAux fuel (n / 10) ++ [digitChar (n % 10)]

/-- Decimal representation of a natural number. -/
def natDigits (n : Nat) : List Char := natDigitsAux (n + 1) n

/-- Model of `maxPrice.toFixed(2)` on an exact amount in cents. -/
def formatCents (c : Nat) : String :=
  String.mk (natDigits (c / 100) ++ '.' ::
    (if c % 100 < 10 then ['0', digitChar (c % 100)] else natDigits (c % 100)))

/-- Membership test `Set.has` on the seen-lists (exact string equality, as in the code). -/
def memB (x : List Char) : List (List Char) → Bool
  | [] => false
  | y :: ys => if x = y then true else memB x ys

/-- The guard `parseFloat(price) < 100000` of pattern 1, in cents. -/
def priceWithinAll (p : List Char) : Bool :=
  match parseCentsL p with
  | some c => c < 10000000
  | none => false

/-- The guard `numPrice < 100000 && numPrice > 0` of pattern 2, in cents. -/
def priceWithinBare (p : List Char) : Bool :=
  match parseCentsL p with
  | some c => c < 10000000 && 0 < c
  | none => false

/-- The shared push-if-new-and-plausible step of the two `allPrices`
loops; the state is `(prices, seenPrices)`.  Pattern 1 strips commas from
the capture first; pattern 2 captures cannot contain commas and the code
uses them as they are. -/
def pushPrice (bare : Bool) (st : List (List Char) × List (List Char))
    (cap : List Char) : List (List Char) × List (List Char) :=
  let price := if bare then cap else stripCommas cap
  if !(memB price st.2) && (if bare then priceWithinBare price else priceWithinAll price) then
    (st.1 ++ [price], st.2 ++ [price])
  else st

/-- State of `prices` / `seenPrices` after the pattern-1 loop. -/
def dollarState (cs : List Char) : List (List Char) × List (List Char) :=
  (scanDollar cs).foldl (pushPrice false) ([], [])

/-- State of `prices` / `seenPrices` after both loops. -/
def allPricesState (cs : List Char) : List (List Char) × List (List Char) :=
  (scanBare cs).foldl (pushPrice true) (dollarState cs)

/-- The ordered `pricePatterns` list: word sequence and label. -/
def labelPatterns : List (List (List Char) × String) :=
  [(["subtotal".data], "Subtotal"),
   (["sub".data, "total".data], "Subtotal"),
   (["total".data], "Total"),
   (["amount".data], "Amount"),
   (["tax".data], "Tax"),
   (["discount".data], "Discount")]

/-- One iteration of the labeled-prices loop; the state is
`(labeledPrices, labeledPriceValues)`. -/
def labeledStep (cs : List Char) (st : List (String × List Char) × List (List Char))
    (pat : List (List Char) × String) : List (String × List Char) × List (List Char) :=
  match findLabelMatch amount02 pat.1 cs with
  | some cap =>
    let v := stripCommas cap
    if memB v st.2 then st else (st.1 ++ [(pat.2, v)], st.2 ++ [v])
  | none => st

/-- State after the labeled-prices loop. -/
def labeledState (cs : List Char) : List (String × List Char) × List (List Char) :=
  labelPatterns.foldl (labeledStep cs) ([], [])

/-- The total resolution: the strict total pattern if it matches, else the
largest collected price formatted to two decimals, else `"N/A"`. -/
def totalResolve (cs : List Char) (prices : List (List Char)) : String :=
  match findLabelMatch amountStrict ["total".data] cs with
  | some cap => String.mk (stripCommas cap)
  | none =>
    if 0 < prices.length then
      formatCents ((prices.filterMap parseCentsL).foldl Nat.max 0)
    else "N/A"

/-- Line splitting, `text.split("\n")`. -/
def splitLines : List Char → List (List Char)
  | [] => [[]]
  | c :: rest =>
    if c = '\n' then [] :: splitLines rest
    else
      match splitLines rest with
      | [] => [[c]]
      | l :: ls => (c :: l) :: ls

/-- Case-insensitive "starts with" over characters. -/
def startsWithLC : List Char → List Char → Bool
  | [], _ => true
  | _ :: _, [] => false
  | w :: ws, c :: cs => if c.toLower = w then startsWithLC ws cs else false

/-- Case-insensitive substring test (the keyword regex of step 4). -/
def containsLC (w : List Char) : List Char → Bool
  | [] => startsWithLC w []
  | c :: cs => startsWithLC w (c :: cs) || containsLC w cs

/-- The summary keywords of `/subtotal|total|tax|discount|payment/i`. -/
def summaryKeywords : List (List Char) :=
  ["subtotal".data, "total".data, "tax".data, "discount".data, "payment".data]

/-- Does the line hit the summary-keyword regex? -/
def lineHasKeyword (l : List Char) : Bool := summaryKeywords.any (fun w => containsLC w l)

/-- One attempt of `/(\d{1,6}\.\d{2})/` (no word boundaries) at the head of
the list. -/
def tryItemAt (cs : List Char) : Option (List Char) :=
  let ds := cs.takeWhile Char.isDigit
  let r1 := cs.dropWhile Char.isDigit
  if ds.isEmpty || 6 < ds.length then none
  else
    match r1 with
    | '.' :: a :: b :: _ => if a.isDigit && b.isDigit then some (ds ++ ['.', a, b]) else none
    | _ => none

/-- First position of `line.match(/(\d{1,6}\.\d{2})/)`: the position where the item
pattern goes through. -/
def findItemPrice : List Char → Option (List Char)
  | [] => none
  | c :: rest =>
    match tryItemAt (c :: rest) with
    | some cap => some cap
    | none => findItemPrice rest

/-- The guard `numPrice < 1000 && numPrice > 0` of the item loop, in cents. -/
def priceWithinItem (p : List Char) : Bool :=
  match parseCentsL p with
  | some c => c < 100000 && 0 < c
  | none => false

/-- Price extraction from one non-summary line; the state is
`(itemPrices, itemPriceSet)`. -/
def extractItem (st : List (List Char) × List (List Char))
    (line : List Char) : List (List Char) × List (List Char) :=
  match findItemPrice line with
  | some price =>
    if !(memB price st.2) && priceWithinItem price then (st.1 ++ [price], st.2 ++ [price])
    else st
  | none => st

/-- One iteration of the item loop; the state carries the `foundSubtotal`
flag in front of `(itemPrices, itemPriceSet)`. -/
def itemStep (st : Bool × List (List Char) × List (List Char))
    (line : List Char) : Bool × List (List Char) × List (List Char) :=
  if lineHasKeyword line then (true, st.2)
  else if st.1 then st
  else (false, extractItem st.2 line)

/-- The parser's output record (`ExtractedData` in the source). -/
structure ExtractedData where
  allPrices : List String
  itemPrices : List String
  labeledPrices : List (String × String)
  total : String
deriving DecidableEq

/-- The price-extraction parser `parseInvoiceData`. -/
def parseInvoiceData (text : String) : ExtractedData :=
  let cs := text.data
  let prices := (allPricesState cs).1
  let labeled := (labeledState cs).1
  let total := totalResolve cs prices
  let items := ((splitLines cs).foldl itemStep (false, ([], []))).2.1
  { allPrices := prices.map String.mk
    itemPrices := (if 0 < items.length then items else []).map String.mk
    labeledPrices := labeled.map (fun p => (p.1, String.mk p.2))
    total := total }

/-! ### Observation helpers (used only to state properties, not by the parser) -/

/-- Is the character anything but a dot? -/
def notDot (c : Char) : Bool := !(c = '.')

/-- Does the string have exactly two fractional digits in its textual
form: a first dot followed by exactly two characters, both digits? -/
def twoFracB (cs : List Char) : Bool :=
  match cs.dropWhile notDot with
  | ['.', a, b] => a.isDigit && b.isDigit
  | _ => false

/-- Case-sensitive "starts with" over characters. -/
def startsWithL : List Char → List Char → Bool
  | [], _ => true
  | _ :: _, [] => false
  | w :: ws, c :: cs => if w = c then startsWithL ws cs else false

/-- Index of the first occurrence of a substring. -/
def firstPos (w : List Char) : List Char → Option Nat
  | [] => if startsWithL w [] then some 0 else none
  | c :: cs => if startsWithL w (c :: cs) then some 0 else (firstPos w cs).map (· + 1)

/-- The prices one `pushPrice` pass appends, in scan order, given the seen
set the pass starts from: a capture is kept exactly when its price (the
capture itself for the bare pass, comma-stripped for the currency pass) is
not yet in the evolving seen set and passes that pass's range guard.  Used
to state exactly which suffix the bare-decimal pass adds after the
currency pass. -/
def newAccepted (bare : Bool) (seen : List (List Char)) : List (List Char) → List (List Char)
  | [] => []
  | cap :: caps =>
    let price := if bare then cap else stripCommas cap
    if !(memB price seen) && (if bare then priceWithinBare price else priceWithinAll price) then
      price :: newAccepted bare (seen ++ [price]) caps
    else newAccepted bare seen caps

/-- Modelled from the spec: the spec describes the step-3 total search as
"a total pattern requiring exactly 2 fractional digits", so this amount
matcher follows the spec's words and demands a dot followed by exactly two
digits after the `[\d,]` run (the code's `amountStrict` is the comparison
point). -/
def amountExact2Spec (cs : List Char) : Option (List Char) :=
  let num := cs.takeWhile isNumChar
  let r1 := cs.dropWhile isNumChar
  if num.isEmpty then none
  else
    match r1 with
    | '.' :: a :: b :: r3 =>
      if a.isDigit && b.isDigit && (match r3 with | c :: _ => !c.isDigit | [] => true) then
        some (num ++ ['.', a, b])
      else none
    | _ => none

/-- Modelled from the spec: existence of a total-labeled match whose
amount has exactly two fractional digits. -/
def totalMatchExact2Spec (cs : List Char) : Bool :=
  (findLabelMatch amountExact2Spec ["total".data] cs).isSome

/-! ### Generic helper lemmas -/

theorem memB_iff_mem (x : List Char) (l : List (List Char)) : memB x l = true ↔ x ∈ l := by
  induction l with
  | nil => simp [memB]
  | cons y ys ih =>
    by_cases h : x = y
    · subst h; simp [memB]
    · simp [memB, h, ih]

theorem nodup_push {α : Type} {l : List α} {a : α} (h : l.Nodup) (ha : a ∉ l) :
    (l ++ [a]).Nodup := by
  rw [List.nodup_append]
  refine ⟨h, List.nodup_singleton a, ?_⟩
  intro x hx hxa
  rw [List.mem_singleton] at hxa
  subst hxa
  exact ha hx

theorem dropWhile_clean {p : Char → Bool} {l1 l2 : List Char}
    (h : ∀ c ∈ l1, p c = true) : List.dropWhile p (l1 ++ l2) = List.dropWhile p l2 := by
  induction l1 with
  | nil => rfl
  | cons c cs ih =>
    simp only [List.cons_append, List.dropWhile_cons, h c (by simp), if_pos rfl]
    exact ih fun d hd => h d (by simp [hd])

theorem digit_notDot {c : Char} (h : c.isDigit = true) : notDot c = true := by
  simp only [notDot, Bool.not_eq_true', decide_eq_false_iff_not]
  intro hc
  subst hc
  exact absurd h (by decide)

/-! ### Case analyses of the loop bodies -/

theorem pushPrice_eq_or (b : Bool) (st : List (List Char) × List (List Char)) (cap : List Char) :
    pushPrice b st cap = st ∨
    ∃ p, memB p st.2 = false ∧ (if b then priceWithinBare p else priceWithinAll p) = true ∧
      pushPrice b st cap = (st.1 ++ [p], st.2 ++ [p]) := by
  by_cases hmb : memB (if b then cap else stripCommas cap) st.2 = true
  · left
    simp [pushPrice, hmb]
  · by_cases hg : (if b then priceWithinBare (if b then cap else stripCommas cap)
        else priceWithinAll (if b then cap else stripCommas cap)) = true
    · right
      refine ⟨if b then cap else stripCommas cap, ?_, hg, ?_⟩
      · rw [← Bool.not_eq_true]; exact hmb
      · simp [pushPrice, hmb, hg]
    · left
      simp [pushPrice, hmb, hg]

theorem labeledStep_eq_or (cs : List Char) (st : List (String × List Char) × List (List Char))
    (pat : List (List Char) × String) :
    labeledStep cs st pat = st ∨
    ∃ lv v, memB v st.2 = false ∧
      labeledStep cs st pat = (st.1 ++ [(lv, v)], st.2 ++ [v]) := by
  simp only [labeledStep]
  cases findLabelMatch amount02 pat.1 cs with
  | none => left; rfl
  | some cap =>
    by_cases hm : memB (stripCommas cap) st.2 = true
    · left; simp [hm]
    · right
      refine ⟨pat.2, stripCommas cap, ?_, by simp [hm]⟩
      rw [← Bool.not_eq_true]; exact hm

theorem extractItem_eq_or (st : List (List Char) × List (List Char)) (line : List Char) :
    extractItem st line = st ∨
    ∃ p, memB p st.2 = false ∧ priceWithinItem p = true ∧ findItemPrice line = some p ∧
      extractItem st line = (st.1 ++ [p], st.2 ++ [p]) := by
  cases hf : findItemPrice line with
  | none => left; simp [extractItem, hf]
  | some price =>
    by_cases hm : memB price st.2 = true
    · left; simp [extractItem, hf, hm]
    · by_cases hg : priceWithinItem price = true
      · right
        refine ⟨price, ?_, hg, rfl, by simp [extractItem, hf, hm, hg]⟩
        rw [← Bool.not_eq_true]; exact hm
      · left; simp [extractItem, hf, hm, hg]

theorem itemStep_snd (st : Bool × List (List Char) × List (List Char)) (line : List Char) :
    (itemStep st line).2 = st.2 ∨ (itemStep st line).2 = extractItem st.2 line := by
  simp only [itemStep]
  by_cases hk : lineHasKeyword line = true
  · left; simp [hk]
  · by_cases hf : st.1 = true
    · left; simp [hk, hf]
    · right; simp [hk, hf]

/-! ### Fold invariants -/

theorem pushPrice_fold_inv (b : Bool) (P : List Char → Prop)
    (hP : ∀ p, (if b then priceWithinBare p else priceWithinAll p) = true → P p) :
    ∀ (caps : List (List Char)) (st : List (List Char) × List (List Char)),
    st.1.Nodup → (∀ p ∈ st.1, p ∈ st.2) → (∀ p ∈ st.1, P p) →
    (caps.foldl (pushPrice b) st).1.Nodup ∧
    (∀ p ∈ (caps.foldl (pushPrice b) st).1, p ∈ (caps.foldl (pushPrice b) st).2) ∧
    (∀ p ∈ (caps.foldl (pushPrice b) st).1, P p) := by
  intro caps
  induction caps with
  | nil => intro st h1 h2 h3; exact ⟨h1, h2, h3⟩
  | cons cap caps ih =>
    intro st h1 h2 h3
    rw [List.foldl_cons]
    rcases pushPrice_eq_or b st cap with he | ⟨p, hm, hg, he⟩
    · rw [he]; exact ih st h1 h2 h3
    · rw [he]
      apply ih
      · apply nodup_push h1
        intro hp
        have hmem := h2 p hp
        rw [← memB_iff_mem p st.2] at hmem
        rw [hm] at hmem
        exact absurd hmem (by simp)
      · intro q hq
        rcases List.mem_append.mp hq with hql | hqr
        · exact List.mem_append.mpr (Or.inl (h2 q hql))
        · exact List.mem_append.mpr (Or.inr hqr)
      · intro q hq
        rcases List.mem_append.mp hq with hql | hqr
        · exact h3 q hql
        · rw [List.mem_singleton] at hqr; subst hqr; exact hP q hg

theorem labeledStep_fold_inv (cs : List Char) :
    ∀ (pats : List (List (List Char) × String))
      (st : List (String × List Char) × List (List Char)),
    (st.1.map Prod.snd).Nodup → (∀ p ∈ st.1.map Prod.snd, p ∈ st.2) →
    ((pats.foldl (labeledStep cs) st).1.map Prod.snd).Nodup ∧
    (∀ p ∈ (pats.foldl (labeledStep cs) st).1.map Prod.snd,
      p ∈ (pats.foldl (labeledStep cs) st).2) := by
  intro pats
  induction pats with
  | nil => intro st h1 h2; exact ⟨h1, h2⟩
  | cons pat pats ih =>
    intro st h1 h2
    rw [List.foldl_cons]
    rcases labeledStep_eq_or cs st pat with he | ⟨lv, v, hm, he⟩
    · rw [he]; exact ih st h1 h2
    · rw [he]
      apply ih
      · rw [List.map_append]
        apply nodup_push h1
        intro hp
        have hmem := h2 v hp
        rw [← memB_iff_mem v st.2] at hmem
        rw [hm] at hmem
        exact absurd hmem (by simp)
      · intro q hq
        rw [List.map_append] at hq
        rcases List.mem_append.mp hq with hql | hqr
        · exact List.mem_append.mpr (Or.inl (h2 q hql))
        · simp only [List.map_cons, List.map_nil] at hqr
          exact List.mem_append.mpr (Or.inr hqr)

theorem itemStep_fold_inv (P : List Char → Prop)
    (hP : ∀ line p, findItemPrice line = some p → priceWithinItem p = true → P p) :
    ∀ (lines : List (List Char)) (st : Bool × List (List Char) × List (List Char)),
    st.2.1.Nodup → (∀ p ∈ st.2.1, p ∈ st.2.2) → (∀ p ∈ st.2.1, P p) →
    (lines.foldl itemStep st).2.1.Nodup ∧
    (∀ p ∈ (lines.foldl itemStep st).2.1, p ∈ (lines.foldl itemStep st).2.2) ∧
    (∀ p ∈ (lines.foldl itemStep st).2.1, P p) := by
  intro lines
  induction lines with
  | nil => intro st h1 h2 h3; exact ⟨h1, h2, h3⟩
  | cons line lines ih =>
    intro st h1 h2 h3
    rw [List.foldl_cons]
    have hstep := itemStep_snd st line
    rcases hstep with he | he
    · exact ih (itemStep st line) (he ▸ h1) (he ▸ h2) (he ▸ h3)
    · rcases extractItem_eq_or st.2 line with hx | ⟨p, hm, hg, hf, hx⟩
      · rw [hx] at he
        exact ih (itemStep st line) (he ▸ h1) (he ▸ h2) (he ▸ h3)
      · rw [hx] at he
        apply ih (itemStep st line)
        · rw [he]
          apply nodup_push h1
          intro hp
          have hmem := h2 p hp
          rw [← memB_iff_mem p st.2.2] at hmem
          rw [hm] at hmem
          exact absurd hmem (by simp)
        · rw [he]
          intro q hq
          rcases List.mem_append.mp hq with hql | hqr
          · exact List.mem_append.mpr (Or.inl (h2 q hql))
          · exact List.mem_append.mpr (Or.inr hqr)
        · rw [he]
          intro q hq
          rcases List.mem_append.mp hq with hql | hqr
          · exact h3 q hql
          · rw [List.mem_singleton] at hqr; subst hqr; exact hP line q hf hg

theorem pushPrice_fold_newAccepted (b : Bool) :
    ∀ (caps : List (List Char)) (st : List (List Char) × List (List Char)),
    (caps.foldl (pushPrice b) st).1 = st.1 ++ newAccepted b st.2 caps := by
  intro caps
  induction caps with
  | nil => intro st; simp [newAccepted]
  | cons cap caps ih =>
    intro st
    rw [List.foldl_cons]
    by_cases hmb : memB (if b then cap else stripCommas cap) st.2 = true
    · have hstep : pushPrice b st cap = st := by simp [pushPrice, hmb]
      rw [hstep, ih st]
      simp [newAccepted, hmb]
    · by_cases hg : (if b then priceWithinBare (if b then cap else stripCommas cap)
          else priceWithinAll (if b then cap else stripCommas cap)) = true
      · have hstep : pushPrice b st cap =
            (st.1 ++ [if b then cap else stripCommas cap],
             st.2 ++ [if b then cap else stripCommas cap]) := by
          simp [pushPrice, hmb, hg]
        rw [hstep, ih]
        simp [newAccepted, hmb, hg]
      · have hstep : pushPrice b st cap = st := by simp [pushPrice, hmb, hg]
        rw [hstep, ih st]
        simp [newAccepted, hmb, hg]

theorem labeledStep_length (cs : List Char) (st : List (String × List Char) × List (List Char))
    (pat : List (List Char) × String) :
    (labeledStep cs st pat).1.length ≤ st.1.length + 1 := by
  rcases labeledStep_eq_or cs st pat with he | ⟨lv, v, _, he⟩ <;> rw [he] <;> simp

theorem labeledFold_length (cs : List Char) :
    ∀ (pats : List (List (List Char) × String))
      (st : List (String × List Char) × List (List Char)),
    (pats.foldl (labeledStep cs) st).1.length ≤ st.1.length + pats.length := by
  intro pats
  induction pats with
  | nil => intro st; simp
  | cons pat pats ih =>
    intro st
    rw [List.foldl_cons]
    have h1 := ih (labeledStep cs st pat)
    have h2 := labeledStep_length cs st pat
    simp only [List.length_cons]
    omega

/-! ### The summary zone: the flag loop collapses to a takeWhile -/

theorem itemStep_true_fold (st : List (List Char) × List (List Char)) :
    ∀ lines : List (List Char), lines.foldl itemStep (true, st) = (true, st) := by
  intro lines
  induction lines with
  | nil => rfl
  | cons l ls ih =>
    rw [List.foldl_cons]
    have hstep : itemStep (true, st) l = (true, st) := by
      simp only [itemStep]
      by_cases hk : lineHasKeyword l = true <;> simp [hk]
    rw [hstep]
    exact ih

theorem itemFold_takeWhile :
    ∀ (lines : List (List Char)) (s : List (List Char) × List (List Char)),
    (lines.foldl itemStep (false, s)).2 =
      (lines.takeWhile fun l => !(lineHasKeyword l)).foldl extractItem s := by
  intro lines
  induction lines with
  | nil => intro s; rfl
  | cons l ls ih =>
    intro s
    by_cases hk : lineHasKeyword l = true
    · rw [List.foldl_cons]
      have h1 : itemStep (false, s) l = (true, s) := by simp [itemStep, hk]
      rw [h1, itemStep_true_fold]
      have h2 : List.takeWhile (fun l => !(lineHasKeyword l)) (l :: ls) = [] := by
        rw [List.takeWhile_cons]; simp [hk]
      rw [h2]
      rfl
    · rw [List.foldl_cons]
      have h1 : itemStep (false, s) l = (false, extractItem s l) := by
        simp [itemStep, hk]
      rw [h1, ih]
      have h2 : List.takeWhile (fun l => !(lineHasKeyword l)) (l :: ls) =
          l :: List.takeWhile (fun l => !(lineHasKeyword l)) ls := by
        rw [List.takeWhile_cons]; simp [hk]
      rw [h2, List.foldl_cons]

theorem ite_length_self {α : Type} (l : List α) : (if 0 < l.length then l else []) = l := by
  cases l <;> simp

/-! ### Shapes of the captured tokens -/

theorem twoFrac_of_digits_append {ds : List Char} {a b : Char}
    (hds : ∀ c ∈ ds, c.isDigit = true) (hab : (a.isDigit && b.isDigit) = true) :
    twoFracB (ds ++ ['.', a, b]) = true := by
  unfold twoFracB
  rw [dropWhile_clean (fun c hc => digit_notDot (hds c hc))]
  have hdot : notDot '.' = false := by decide
  rw [List.dropWhile_cons, hdot]
  simpa using hab

theorem tryItemAt_twoFrac {cs p : List Char} (h : tryItemAt cs = some p) :
    twoFracB p = true := by
  simp only [tryItemAt] at h
  split at h
  · exact absurd h (by simp)
  · split at h
    · split at h
      · next hab =>
        injection h with h
        subst h
        exact twoFrac_of_digits_append (fun c hc => List.mem_takeWhile_imp hc) hab
      · exact absurd h (by simp)
    · exact absurd h (by simp)

theorem findItemPrice_twoFrac : ∀ {line p : List Char},
    findItemPrice line = some p → twoFracB p = true := by
  intro line
  induction line with
  | nil => intro p h; exact absurd h (by simp [findItemPrice])
  | cons c rest ih =>
    intro p h
    simp only [findItemPrice] at h
    cases ht : tryItemAt (c :: rest) with
    | some cap =>
      rw [ht] at h
      injection h with h
      subst h
      exact tryItemAt_twoFrac ht
    | none =>
      rw [ht] at h
      exact ih h

theorem tryBareAt_twoFrac {prev : Option Char} {cs p : List Char}
    (h : tryBareAt prev cs = some p) : twoFracB p = true := by
  simp only [tryBareAt] at h
  split at h
  · split at h
    · exact absurd h (by simp)
    · split at h
      · split at h
        · next hab =>
          injection h with h
          subst h
          refine twoFrac_of_digits_append (fun c hc => List.mem_takeWhile_imp hc) ?_
          simp only [Bool.and_eq_true] at hab
          simp [hab.1.1, hab.1.2]
        · exact absurd h (by simp)
      · exact absurd h (by simp)
  · exact absurd h (by simp)

theorem scanBareAux_twoFrac : ∀ (fuel : Nat) (prev : Option Char) (cs cap : List Char),
    cap ∈ scanBareAux fuel prev cs → twoFracB cap = true := by
  intro fuel
  induction fuel with
  | zero => intro prev cs cap hc; simp [scanBareAux] at hc
  | succ fuel ih =>
    intro prev cs cap hc
    cases cs with
    | nil => simp [scanBareAux] at hc
    | cons c rest =>
      simp only [scanBareAux] at hc
      cases ht : tryBareAt prev (c :: rest) with
      | some cap0 =>
        rw [ht] at hc
        rcases List.mem_cons.mp hc with hc1 | hc2
        · subst hc1; exact tryBareAt_twoFrac ht
        · exact ih _ _ cap hc2
      | none =>
        rw [ht] at hc
        exact ih _ _ cap hc

theorem scanBare_twoFrac (cs cap : List Char) (h : cap ∈ scanBare cs) :
    twoFracB cap = true := scanBareAux_twoFrac cs.length none cs cap h

/-! ### Digits of `toFixed(2)` -/

theorem digitChar_isDigit (n : Nat) : (digitChar n).isDigit = true := by
  unfold digitChar
  split <;> decide

theorem natDigitsAux_digits : ∀ (fuel n : Nat) (c : Char),
    c ∈ natDigitsAux fuel n → c.isDigit = true := by
  intro fuel
  induction fuel with
  | zero => intro n c hc; simp [natDigitsAux] at hc
  | succ fuel ih =>
    intro n c hc
    simp only [natDigitsAux] at hc
    by_cases hn : n < 10
    · rw [if_pos hn] at hc
      rw [List.mem_singleton] at hc
      subst hc
      exact digitChar_isDigit n
    · rw [if_neg hn] at hc
      rcases List.mem_append.mp hc with hc1 | hc2
      · exact ih _ c hc1
      · rw [List.mem_singleton] at hc2
        subst hc2
        exact digitChar_isDigit (n % 10)

theorem natDigits_digits (n : Nat) : ∀ c ∈ natDigits n, c.isDigit = true :=
  fun c hc => natDigitsAux_digits (n + 1) n c hc

theorem natDigits_two {n : Nat} (h10 : 10 ≤ n) (h100 : n < 100) :
    natDigits n = [digitChar (n / 10), digitChar (n % 10)] := by
  unfold natDigits
  obtain ⟨m, rfl⟩ : ∃ m, n = m + 1 := ⟨n - 1, by omega⟩
  rw [natDigitsAux]
  rw [if_neg (by omega : ¬ (m + 1 < 10))]
  obtain ⟨k, hk⟩ : ∃ k, m = k + 1 := ⟨m - 1, by omega⟩
  subst hk
  rw [natDigitsAux]
  rw [if_pos (by omega : (k + 1 + 1) / 10 < 10)]
  rfl

theorem formatCents_twoFrac (c : Nat) : twoFracB (formatCents c).data = true := by
  show twoFracB (natDigits (c / 100) ++ '.' ::
    (if c % 100 < 10 then ['0', digitChar (c % 100)] else natDigits (c % 100))) = true
  by_cases h : c % 100 < 10
  · rw [if_pos h]
    exact twoFrac_of_digits_append (natDigits_digits (c / 100))
      (by simp [digitChar_isDigit])
  · rw [if_neg h]
    rw [@natDigits_two (c % 100) (by omega) (by omega)]
    exact twoFrac_of_digits_append (natDigits_digits (c / 100))
      (by simp [digitChar_isDigit])

/-! ### Inputs without digits, dollars or letters match nothing -/

theorem wsOnly_cases {c : Char} (h : c = ' ' ∨ c = '\n' ∨ c = '\t' ∨ c = '\r') :
    c.isDigit = false ∧ c ≠ '$' ∧ (c.toLower).isAlpha = false := by
  rcases h with h | h | h | h <;> subst h <;> exact ⟨by decide, by decide, by decide⟩

theorem tryDollarAt_not_dollar {c : Char} {rest : List Char} (h : c ≠ '$') :
    tryDollarAt (c :: rest) = none := by
  simp [tryDollarAt, h]

theorem scanDollarAux_none : ∀ (fuel : Nat) (cs : List Char),
    (∀ c ∈ cs, c ≠ '$') → scanDollarAux fuel cs = [] := by
  intro fuel
  induction fuel with
  | zero => intro cs _; rfl
  | succ fuel ih =>
    intro cs h
    cases cs with
    | nil => rfl
    | cons c rest =>
      simp only [scanDollarAux]
      rw [tryDollarAt_not_dollar (h c (by simp))]
      exact ih rest (fun d hd => h d (by simp [hd]))

theorem tryBareAt_not_digit {prev : Option Char} {c : Char} {rest : List Char}
    (h : c.isDigit = false) : tryBareAt prev (c :: rest) = none := by
  simp [tryBareAt, List.takeWhile_cons, h]

theorem scanBareAux_none : ∀ (fuel : Nat) (prev : Option Char) (cs : List Char),
    (∀ c ∈ cs, c.isDigit = false) → scanBareAux fuel prev cs = [] := by
  intro fuel
  induction fuel with
  | zero => intro prev cs _; rfl
  | succ fuel ih =>
    intro prev cs h
    cases cs with
    | nil => rfl
    | cons c rest =>
      simp only [scanBareAux]
      rw [tryBareAt_not_digit (h c (by simp))]
      exact ih (some c) rest (fun d hd => h d (by simp [hd]))

theorem matchWordCI_not_alpha {hd : Char} {wtl cs' : List Char} {c : Char}
    (hhd : hd.isAlpha = true) (hc : (c.toLower).isAlpha = false) :
    matchWordCI (hd :: wtl) (c :: cs') = none := by
  have hne : ¬ (c.toLower = hd) := by
    intro he
    rw [he, hhd] at hc
    exact absurd hc (by simp)
  simp [matchWordCI, hne]

theorem matchWordsCI_head_none {hd : Char} {wtl : List Char} {ws : List (List Char)}
    {c : Char} {rest : List Char}
    (hhd : hd.isAlpha = true) (hc : (c.toLower).isAlpha = false) :
    matchWordsCI ((hd :: wtl) :: ws) (c :: rest) = none := by
  simp only [matchWordsCI]
  rw [matchWordCI_not_alpha hhd hc]

theorem findLabelMatch_none (amt : List Char → Option (List Char)) (hd : Char)
    (wtl : List Char) (ws : List (List Char)) (hhd : hd.isAlpha = true) :
    ∀ cs : List Char, (∀ c ∈ cs, (c.toLower).isAlpha = false) →
    findLabelMatch amt ((hd :: wtl) :: ws) cs = none := by
  intro cs
  induction cs with
  | nil => intro _; rfl
  | cons c rest ih =>
    intro h
    simp only [findLabelMatch]
    rw [matchWordsCI_head_none hhd (h c (by simp))]
    exact ih (fun d hd' => h d (by simp [hd']))

theorem startsWithLC_not_alpha {hd : Char} {wtl : List Char} (hhd : hd.isAlpha = true) :
    ∀ l : List Char, (∀ c ∈ l, (c.toLower).isAlpha = false) →
    startsWithLC (hd :: wtl) l = false := by
  intro l h
  cases l with
  | nil => rfl
  | cons c cs =>
    have hne : ¬ (c.toLower = hd) := by
      intro he
      have := h c (by simp)
      rw [he, hhd] at this
      exact absurd this (by simp)
    simp [startsWithLC, hne]

theorem containsLC_not_alpha (hd : Char) (wtl : List Char) (hhd : hd.isAlpha = true) :
    ∀ l : List Char, (∀ c ∈ l, (c.toLower).isAlpha = false) →
    containsLC (hd :: wtl) l = false := by
  intro l
  induction l with
  | nil => intro _; rfl
  | cons c cs ih =>
    intro h
    simp only [containsLC]
    rw [startsWithLC_not_alpha hhd (c :: cs) h, ih (fun d hd' => h d (by simp [hd']))]
    rfl

theorem lineHasKeyword_not_alpha {l : List Char}
    (h : ∀ c ∈ l, (c.toLower).isAlpha = false) : lineHasKeyword l = false := by
  simp only [lineHasKeyword, summaryKeywords, List.any_cons, List.any_nil]
  rw [containsLC_not_alpha 's' ['u', 'b', 't', 'o', 't', 'a', 'l'] (by decide) l h,
    containsLC_not_alpha 't' ['o', 't', 'a', 'l'] (by decide) l h,
    containsLC_not_alpha 't' ['a', 'x'] (by decide) l h,
    containsLC_not_alpha 'd' ['i', 's', 'c', 'o', 'u', 'n', 't'] (by decide) l h,
    containsLC_not_alpha 'p' ['a', 'y', 'm', 'e', 'n', 't'] (by decide) l h]
  rfl

theorem tryItemAt_not_digit {c : Char} {rest : List Char} (h : c.isDigit = false) :
    tryItemAt (c :: rest) = none := by
  simp [tryItemAt, List.takeWhile_cons, h]

theorem findItemPrice_not_digit : ∀ l : List Char,
    (∀ c ∈ l, c.isDigit = false) → findItemPrice l = none := by
  intro l
  induction l with
  | nil => intro _; rfl
  | cons c rest ih =>
    intro h
    simp only [findItemPrice]
    rw [tryItemAt_not_digit (h c (by simp))]
    exact ih (fun d hd => h d (by simp [hd]))

theorem splitLines_mem : ∀ (cs l : List Char), l ∈ splitLines cs → ∀ c ∈ l, c ∈ cs := by
  intro cs
  induction cs with
  | nil =>
    intro l hl c hc
    simp [splitLines] at hl
    subst hl
    simp at hc
  | cons x rest ih =>
    intro l hl c hc
    by_cases hx : x = '\n'
    · rw [splitLines, if_pos hx] at hl
      rcases List.mem_cons.mp hl with hl1 | hl2
      · subst hl1; simp at hc
      · exact List.mem_cons.mpr (Or.inr (ih l hl2 c hc))
    · rw [splitLines, if_neg hx] at hl
      cases hsp : splitLines rest with
      | nil =>
        rw [hsp] at hl
        simp at hl
        subst hl
        simp at hc
        subst hc
        simp
      | cons m ms =>
        rw [hsp] at hl
        rcases List.mem_cons.mp hl with hl1 | hl2
        · subst hl1
          rcases List.mem_cons.mp hc with hc1 | hc2
          · subst hc1; simp
          · have hm : m ∈ splitLines rest := by rw [hsp]; simp
            exact List.mem_cons.mpr (Or.inr (ih m hm c hc2))
        · have hml : l ∈ splitLines rest := by rw [hsp]; simp [hl2]
          exact List.mem_cons.mpr (Or.inr (ih l hml c hc))

theorem itemFold_inert : ∀ lines : List (List Char),
    (∀ l ∈ lines, lineHasKeyword l = false ∧ findItemPrice l = none) →
    lines.foldl itemStep (false, ([], [])) = (false, ([], [])) := by
  intro lines
  induction lines with
  | nil => intro _; rfl
  | cons l ls ih =>
    intro h
    rw [List.foldl_cons]
    have hstep : itemStep (false, ([], [])) l = (false, ([], [])) := by
      simp [itemStep, (h l (by simp)).1, extractItem, (h l (by simp)).2]
    rw [hstep]
    exact ih (fun m hm => h m (by simp [hm]))

theorem labeledState_inert {cs : List Char}
    (h : ∀ c ∈ cs, (c.toLower).isAlpha = false) : labeledState cs = ([], []) := by
  have e1 : findLabelMatch amount02 [['s', 'u', 'b', 't', 'o', 't', 'a', 'l']] cs = none :=
    findLabelMatch_none amount02 's' ['u', 'b', 't', 'o', 't', 'a', 'l'] [] (by decide) cs h
  have e2 : findLabelMatch amount02 [['s', 'u', 'b'], ['t', 'o', 't', 'a', 'l']] cs = none :=
    findLabelMatch_none amount02 's' ['u', 'b'] [['t', 'o', 't', 'a', 'l']] (by decide) cs h
  have e3 : findLabelMatch amount02 [['t', 'o', 't', 'a', 'l']] cs = none :=
    findLabelMatch_none amount02 't' ['o', 't', 'a', 'l'] [] (by decide) cs h
  have e4 : findLabelMatch amount02 [['a', 'm', 'o', 'u', 'n', 't']] cs = none :=
    findLabelMatch_none amount02 'a' ['m', 'o', 'u', 'n', 't'] [] (by decide) cs h
  have e5 : findLabelMatch amount02 [['t', 'a', 'x']] cs = none :=
    findLabelMatch_none amount02 't' ['a', 'x'] [] (by decide) cs h
  have e6 : findLabelMatch amount02 [['d', 'i', 's', 'c', 'o', 'u', 'n', 't']] cs = none :=
    findLabelMatch_none amount02 'd' ['i', 's', 'c', 'o', 'u', 'n', 't'] [] (by decide) cs h
  simp only [labeledState, labelPatterns, List.foldl_cons, List.foldl_nil]
  simp [labeledStep, e1, e2, e3, e4, e5, e6]

/-! ### Range guards in terms of cents -/

theorem priceWithinAll_spec {p : List Char} (h : priceWithinAll p = true) :
    ∃ c, parseCentsL p = some c ∧ c < 10000000 := by
  unfold priceWithinAll at h
  cases hc : parseCentsL p with
  | none => rw [hc] at h; exact absurd h (by simp)
  | some c => rw [hc] at h; exact ⟨c, rfl, by simpa using h⟩

theorem priceWithinBare_spec {p : List Char} (h : priceWithinBare p = true) :
    ∃ c, parseCentsL p = some c ∧ c < 10000000 ∧ 0 < c := by
  unfold priceWithinBare at h
  cases hc : parseCentsL p with
  | none => rw [hc] at h; exact absurd h (by simp)
  | some c =>
    rw [hc] at h
    simp only [Bool.and_eq_true, decide_eq_true_eq] at h
    exact ⟨c, rfl, h.1, h.2⟩

theorem priceWithinItem_spec {p : List Char} (h : priceWithinItem p = true) :
    ∃ c, parseCentsL p = some c ∧ 0 < c ∧ c < 100000 := by
  unfold priceWithinItem at h
  cases hc : parseCentsL p with
  | none => rw [hc] at h; exact absurd h (by simp)
  | some c =>
    rw [hc] at h
    simp only [Bool.and_eq_true, decide_eq_true_eq] at h
    exact ⟨c, rfl, h.2, h.1⟩

/-! ### Claim theorems -/

/-- Claim C1, counterexample: on the Scenario B input the Total label is
not resolved to the total line's own amount "6.21" — the `/total/i`
patterns hit the substring "total" inside "Subtotal" first, so the Total
label is deduplicated away and `total` is "5.75", not "6.21". -/
theorem C1_scenarioB_counterexample :
    (parseInvoiceData "Coffee 3.50\nBagel 2.25\nSubtotal: $5.75\nTax: $0.46\nTotal: $6.21").total
      ≠ "6.21" ∧
    ("Total", "6.21") ∉
      (parseInvoiceData
        "Coffee 3.50\nBagel 2.25\nSubtotal: $5.75\nTax: $0.46\nTotal: $6.21").labeledPrices := by
  decide

/-- Claim C1, amended: on the Scenario B input, `itemPrices` is
["3.50", "2.25"] as claimed, but the first match of the Total patterns is
the "total: $5.75" inside "Subtotal", so `labeledPrices` keeps only
Subtotal "5.75" and Tax "0.46" (the Total value "5.75" is a duplicate and
is dropped) and `total` is "5.75". -/
theorem C1_scenarioB_amended :
    parseInvoiceData "Coffee 3.50\nBagel 2.25\nSubtotal: $5.75\nTax: $0.46\nTotal: $6.21" =
      { allPrices := ["5.75", "0.46", "6.21", "3.50", "2.25"],
        itemPrices := ["3.50", "2.25"],
        labeledPrices := [("Subtotal", "5.75"), ("Tax", "0.46")],
        total := "5.75" } := by
  decide

/-- Claim C2, counterexample: on "Total: 621\n5.25" there is no
total-labeled match with exactly two fractional digits (in the spec's
sense) and `allPrices` = ["5.25"] is non-empty, yet `total` is "621" (the
code's strict total pattern accepts "621" through backtracking of
`[\d,]+\.?\d{2}`), not the formatted maximum "5.25". -/
theorem C2_total_resolution_counterexample :
    totalMatchExact2Spec "Total: 621\n5.25".data = false ∧
    (parseInvoiceData "Total: 621\n5.25").allPrices = ["5.25"] ∧
    parseCentsL "5.25".data = some 525 ∧
    formatCents 525 = "5.25" ∧
    (parseInvoiceData "Total: 621\n5.25").total = "621" := by
  decide

/-- Claim C2, amended: with "total match" read as the code's strict total
pattern (which, through backtracking, also accepts amounts without a dot
whose `[\d,]` run ends in two digits): if it finds no match and
`allPrices` is non-empty, `total` is the maximum of `allPrices` as a
decimal (cents) value formatted to two fraction digits; if it finds no
match and `allPrices` is empty, `total` is the "N/A" sentinel; if it
matches, `total` is the matched amount with separators stripped. -/
theorem C2_total_resolution_amended (text : String) :
    (findLabelMatch amountStrict ["total".data] text.data = none →
      (parseInvoiceData text).allPrices ≠ [] →
      (parseInvoiceData text).total =
        formatCents ((((parseInvoiceData text).allPrices).filterMap
          (fun s => parseCentsL s.data)).foldl Nat.max 0)) ∧
    (findLabelMatch amountStrict ["total".data] text.data = none →
      (parseInvoiceData text).allPrices = [] →
      (parseInvoiceData text).total = "N/A") ∧
    (∀ cap, findLabelMatch amountStrict ["total".data] text.data = some cap →
      (parseInvoiceData text).total = String.mk (stripCommas cap)) := by
  refine ⟨?_, ?_, ?_⟩
  · intro hn hne
    simp only [parseInvoiceData] at hne ⊢
    have hp : (allPricesState text.data).1 ≠ [] := by
      intro h0
      rw [h0] at hne
      simp at hne
    simp only [totalResolve]
    simp only [hn]
    rw [if_pos (List.length_pos.mpr hp)]
    congr 1
    rw [List.filterMap_map]
    rfl
  · intro hn hne
    simp only [parseInvoiceData] at hne ⊢
    have hp : (allPricesState text.data).1 = [] := by
      rw [List.map_eq_nil_iff] at hne
      exact hne
    simp only [totalResolve]
    simp only [hn]
    rw [hp]
    rfl
  · intro cap hc
    simp only [parseInvoiceData, totalResolve]
    simp only [hc]

theorem C2_total_resolution_witness :
    ((parseInvoiceData "a 5.25").total =
      formatCents ((((parseInvoiceData "a 5.25").allPrices).filterMap
        (fun s => parseCentsL s.data)).foldl Nat.max 0)) ∧
    (parseInvoiceData "x").total = "N/A" ∧
    (parseInvoiceData "Total: 6.21").total = String.mk (stripCommas "6.21".data) :=
  ⟨(C2_total_resolution_amended "a 5.25").1 (by decide) (by decide),
   (C2_total_resolution_amended "x").2.1 (by decide) (by decide),
   (C2_total_resolution_amended "Total: 6.21").2.2 "6.21".data (by decide)⟩

/-- Claim C3, counterexample: the currency-marked pattern accepts a zero
amount, so the lower bound of the claimed range is not strict: on "$0.00"
the value "0.00" (0 cents) is in `allPrices`. -/
theorem C3_range_counterexample :
    "0.00" ∈ (parseInvoiceData "$0.00").allPrices ∧
    parseCentsL "0.00".data = some 0 := by
  decide

/-- Claim C3, amended: every `allPrices` value parses to a cents value
below 10000000 (100000 dollars) — zero included, since the currency-marked
pattern has no positivity guard — and every `itemPrices` value parses to a
cents value strictly between 0 and 100000 (1000 dollars). -/
theorem C3_range_amended (text : String) :
    (∀ p ∈ (parseInvoiceData text).allPrices,
      ∃ c, parseCentsL p.data = some c ∧ c < 10000000) ∧
    (∀ p ∈ (parseInvoiceData text).itemPrices,
      ∃ c, parseCentsL p.data = some c ∧ 0 < c ∧ c < 100000) := by
  constructor
  · have h0 := pushPrice_fold_inv false
      (fun q => ∃ c, parseCentsL q = some c ∧ c < 10000000)
      (fun q hg => priceWithinAll_spec (by simpa using hg))
      (scanDollar text.data) ([], []) List.nodup_nil (by simp) (by simp)
    have h1 := pushPrice_fold_inv true
      (fun q => ∃ c, parseCentsL q = some c ∧ c < 10000000)
      (fun q hg => by
        obtain ⟨c, hc, hlt, _⟩ := priceWithinBare_spec (by simpa using hg)
        exact ⟨c, hc, hlt⟩)
      (scanBare text.data) (dollarState text.data) h0.1 h0.2.1 h0.2.2
    intro p hp
    simp only [parseInvoiceData] at hp
    obtain ⟨q, hq, rfl⟩ := List.mem_map.mp hp
    exact h1.2.2 q hq
  · have h := itemStep_fold_inv
      (fun q => ∃ c, parseCentsL q = some c ∧ 0 < c ∧ c < 100000)
      (fun line p _ hg => priceWithinItem_spec hg)
      (splitLines text.data) (false, ([], [])) List.nodup_nil (by simp) (by simp)
    intro p hp
    simp only [parseInvoiceData] at hp
    rw [ite_length_self] at hp
    obtain ⟨q, hq, rfl⟩ := List.mem_map.mp hp
    exact h.2.2 q hq

theorem C3_range_witness :
    (∃ c, parseCentsL "5.25".data = some c ∧ c < 10000000) ∧
    (∃ c, parseCentsL "3.10".data = some c ∧ 0 < c ∧ c < 100000) :=
  ⟨(C3_range_amended "Item 3.10\n$5.25").1 "5.25" (by decide),
   (C3_range_amended "Item 3.10\n$5.25").2 "3.10" (by decide)⟩

/-- Claim C4, counterexample: `allPrices` is not ordered by first
occurrence in the text: on "3.50 $2.00" the token "3.50" occurs at index 0
and "2.00" at index 6, but the currency-marked pass runs first, so
`allPrices` is ["2.00", "3.50"]. -/
theorem C4_order_counterexample :
    (parseInvoiceData "3.50 $2.00").allPrices = ["2.00", "3.50"] ∧
    firstPos "3.50".data "3.50 $2.00".data = some 0 ∧
    firstPos "2.00".data "3.50 $2.00".data = some 6 := by
  decide

/-- Claim C4, amended: `allPrices` is the currency-marked acceptances (in
scan order) followed by exactly the bare-decimal acceptances that are new
relative to the seen set left by the currency pass, in scan order
(`newAccepted`) — the two passes are concatenated, not merged by text
position. -/
theorem C4_order_amended (text : String) :
    (parseInvoiceData text).allPrices =
      ((dollarState text.data).1.map String.mk) ++
      ((newAccepted true (dollarState text.data).2 (scanBare text.data)).map String.mk) := by
  simp only [parseInvoiceData]
  show ((scanBare text.data).foldl (pushPrice true) (dollarState text.data)).1.map String.mk = _
  rw [pushPrice_fold_newAccepted true (scanBare text.data) (dollarState text.data)]
  exact List.map_append String.mk _ _

/-- Claim C5, counterexample: deduplication is by exact normalized string,
not by decimal value: on "$5.5 $5.50" both "5.5" and "5.50" (both 550
cents) are kept in `allPrices`. -/
theorem C5_dedup_counterexample :
    (parseInvoiceData "$5.5 $5.50").allPrices = ["5.5", "5.50"] ∧
    parseCentsL "5.5".data = some 550 ∧
    parseCentsL "5.50".data = some 550 := by
  decide

/-- Claim C5, amended: no two elements of `allPrices`, no two elements of
`itemPrices`, and no two amount values inside `labeledPrices` are equal as
strings (after separator stripping); distinct textual forms of the same
decimal value can still co-occur. -/
theorem C5_dedup_amended (text : String) :
    (parseInvoiceData text).allPrices.Nodup ∧
    (parseInvoiceData text).itemPrices.Nodup ∧
    ((parseInvoiceData text).labeledPrices.map Prod.snd).Nodup := by
  refine ⟨?_, ?_, ?_⟩
  · have h0 := pushPrice_fold_inv false (fun _ => True) (fun _ _ => trivial)
      (scanDollar text.data) ([], []) List.nodup_nil (by simp) (by simp)
    have h1 := pushPrice_fold_inv true (fun _ => True) (fun _ _ => trivial)
      (scanBare text.data) (dollarState text.data) h0.1 h0.2.1 (fun _ _ => trivial)
    simp only [parseInvoiceData]
    exact List.Nodup.map (fun a b hab => congrArg String.data hab) h1.1
  · have h := itemStep_fold_inv (fun _ => True) (fun _ _ _ _ => trivial)
      (splitLines text.data) (false, ([], [])) List.nodup_nil (by simp) (by simp)
    simp only [parseInvoiceData]
    rw [ite_length_self]
    exact List.Nodup.map (fun a b hab => congrArg String.data hab) h.1
  · have h := labeledStep_fold_inv text.data labelPatterns ([], []) (by simp) (by simp)
    simp only [parseInvoiceData]
    rw [List.map_map]
    show ((labeledState text.data).1.map (String.mk ∘ Prod.snd)).Nodup
    rw [← List.map_map]
    exact List.Nodup.map (fun a b hab => congrArg String.data hab) h.1

/-- Claim C6, counterexample: not every Money string in the result has two
fractional digits: on "$5.5" the value "5.5" (one fraction digit) is in
`allPrices`. -/
theorem C6_twofrac_counterexample :
    (parseInvoiceData "$5.5").allPrices = ["5.5"] ∧
    twoFracB "5.5".data = false := by
  decide

/-- Claim C6, amended: every `itemPrices` element has exactly two
fractional digits (the item pattern demands them), and the fallback total
`toFixed(2)` always produces exactly two fractional digits; `allPrices`
and labeled amounts may carry zero to two fraction digits. -/
theorem C6_twofrac_amended (text : String) :
    (∀ p ∈ (parseInvoiceData text).itemPrices, twoFracB p.data = true) ∧
    (∀ c : Nat, twoFracB (formatCents c).data = true) := by
  constructor
  · have h := itemStep_fold_inv (fun q => twoFracB q = true)
      (fun line p hf _ => findItemPrice_twoFrac hf)
      (splitLines text.data) (false, ([], [])) List.nodup_nil (by simp) (by simp)
    intro p hp
    simp only [parseInvoiceData] at hp
    rw [ite_length_self] at hp
    obtain ⟨q, hq, rfl⟩ := List.mem_map.mp hp
    exact h.2.2 q hq
  · exact formatCents_twoFrac

theorem C6_twofrac_witness : twoFracB "3.99".data = true :=
  (C6_twofrac_amended "Milk 3.99").1 "3.99" (by decide)

/-- Claim C7, counterexample: a numeric token with more than two
fractional digits can contribute a truncated prefix: on "$6.215" the
currency-marked pattern captures "6.21", which lands in `allPrices` and
becomes the fallback `total`. -/
theorem C7_overfrac_counterexample :
    twoFracB "6.215".data = false ∧
    (parseInvoiceData "$6.215").allPrices = ["6.21"] ∧
    (parseInvoiceData "$6.215").total = "6.21" := by
  decide

/-- Claim C7, amended: only the bare-decimal pattern (word boundaries on
both sides) rejects tokens with more than two fractional digits — every
capture it produces has exactly two fraction digits, and it matches
nothing in "12.345" — while the currency-marked, labeled and per-line item
patterns may accept the two-fraction-digit prefix of such a token (e.g.
`itemPrices` = ["12.34"] on "Item 12.345"). -/
theorem C7_overfrac_amended :
    (∀ (cs : List Char), ∀ cap ∈ scanBare cs, twoFracB cap = true) ∧
    scanBare "12.345".data = [] ∧
    (parseInvoiceData "Item 12.345").itemPrices = ["12.34"] := by
  refine ⟨fun cs cap h => scanBare_twoFrac cs cap h, by decide, by decide⟩

theorem C7_overfrac_witness : twoFracB "3.50".data = true :=
  C7_overfrac_amended.1 "a 3.50".data "3.50".data (by decide)

/-- Claim C8: summary monotonicity — `itemPrices` is exactly what the item
extraction collects from the lines strictly before the first line that
hits a summary keyword; a keyword line and all later lines contribute
nothing, and the summary flag never reverts. -/
theorem C8_summary_monotonicity (text : String) :
    (parseInvoiceData text).itemPrices =
      ((((splitLines text.data).takeWhile fun l => !(lineHasKeyword l)).foldl
        extractItem ([], [])).1).map String.mk := by
  simp only [parseInvoiceData]
  rw [ite_length_self]
  rw [show ((splitLines text.data).foldl itemStep (false, ([], []))).2 =
      ((splitLines text.data).takeWhile fun l => !(lineHasKeyword l)).foldl
        extractItem ([], [])
    from itemFold_takeWhile (splitLines text.data) ([], [])]

/-- Claim C9: the parser is a total pure function (it is a Lean function
by construction), and on empty or whitespace-only input every collection
is empty and the total is the unknown sentinel (realized as "N/A"). -/
theorem C9_whitespace_total (text : String)
    (h : ∀ c ∈ text.data, c = ' ' ∨ c = '\n' ∨ c = '\t' ∨ c = '\r') :
    parseInvoiceData text =
      { allPrices := [], itemPrices := [], labeledPrices := [], total := "N/A" } := by
  have hdig : ∀ c ∈ text.data, c.isDigit = false := fun c hc => (wsOnly_cases (h c hc)).1
  have hdol : ∀ c ∈ text.data, c ≠ '$' := fun c hc => (wsOnly_cases (h c hc)).2.1
  have halp : ∀ c ∈ text.data, (c.toLower).isAlpha = false :=
    fun c hc => (wsOnly_cases (h c hc)).2.2
  have hd : scanDollar text.data = [] := scanDollarAux_none text.data.length text.data hdol
  have hb : scanBare text.data = [] := scanBareAux_none text.data.length none text.data hdig
  have hAll : allPricesState text.data = ([], []) := by
    unfold allPricesState dollarState
    rw [hd, hb]
    rfl
  have hLab : labeledState text.data = ([], []) := labeledState_inert halp
  have hTot : findLabelMatch amountStrict [['t', 'o', 't', 'a', 'l']] text.data = none :=
    findLabelMatch_none amountStrict 't' ['o', 't', 'a', 'l'] [] (by decide) text.data halp
  have hItems : (splitLines text.data).foldl itemStep (false, ([], [])) = (false, ([], [])) := by
    apply itemFold_inert
    intro l hl
    have hsub : ∀ c ∈ l, c ∈ text.data := splitLines_mem text.data l hl
    exact ⟨lineHasKeyword_not_alpha (fun c hc => halp c (hsub c hc)),
      findItemPrice_not_digit l (fun c hc => hdig c (hsub c hc))⟩
  simp only [parseInvoiceData]
  rw [hAll, hItems]
  rw [hLab]
  simp [totalResolve, hTot]

theorem C9_whitespace_total_witness :
    parseInvoiceData " \n " =
      { allPrices := [], itemPrices := [], labeledPrices := [], total := "N/A" } :=
  C9_whitespace_total " \n " (by decide)

/-- Claim C10: `labeledPrices` has at most six entries with pairwise
distinct amount values, but the Subtotal label can repeat: with a spaced
"sub total" line before a "subtotal" line carrying a different amount,
both Subtotal patterns contribute. -/
theorem C10_labeled_bound :
    (∀ text : String, (parseInvoiceData text).labeledPrices.length ≤ 6 ∧
      ((parseInvoiceData text).labeledPrices.map Prod.snd).Nodup) ∧
    (parseInvoiceData "sub total: 6.00\nsubtotal: 5.00").labeledPrices =
      [("Subtotal", "5.00"), ("Subtotal", "6.00")] := by
  constructor
  · intro text
    constructor
    · have h := labeledFold_length text.data labelPatterns ([], [])
      simp only [parseInvoiceData]
      rw [List.length_map]
      exact le_trans h (by simp [labelPatterns])
    · have h := labeledStep_fold_inv text.data labelPatterns ([], []) (by simp) (by simp)
      simp only [parseInvoiceData]
      rw [List.map_map]
      show ((labeledState text.data).1.map (String.mk ∘ Prod.snd)).Nodup
      rw [← List.map_map]
      exact List.Nodup.map (fun a b hab => congrArg String.data hab) h.1
  · decide
